import Mathlib

/-!
# kamae: selection session and installation plan

A shallow embedding of the Go sources `internal/manifest.go`, `internal/ui.go`
and `cmd/kamae/main.go`.

* Go `int` values (the cursor, map keys, slice indices) are `Int`; the only
  arithmetic on them is `cursor--`, `cursor++` and `len(apps)-1`, all far from
  the machine bounds.
* The Go `map[int]bool` is a finite map `Finmap` from `Int` to `Bool`:
  `m[k]` is `lookup` with the zero value `false` for an absent key,
  `m[k] = true` is `insert`, `delete(m, k)` is `erase`, `len(m)` is the number
  of keys.
* A Bubble Tea message is a key press, identified by `msg.String()`, the
  `tea.QuitMsg` that ends the event loop, or any other message; a command is
  `nil` or `tea.Quit`.
* Go leaves the order of a `range` over a map open. The manifest groups come
  with their entries in the order visited; `View`, which builds its map
  itself, takes the orders of its two loops as arguments.
* `View` writes a list of pieces; its text is the concatenation of their
  renderings. The lipgloss styles and `strings.Title` are arguments.
-/

namespace Kamae

/-! ## Data model (`internal/manifest.go`) -/

/-- App represents a single application in the manifest. -/
structure App where
  Name : String
  ID : String
  Install : String
  MasID : String
deriving DecidableEq, Repr

/-- AppItem represents an app with its selection state and metadata. -/
structure AppItem where
  App : App
  Category : String
  Priority : String
  DisplayName : String
  Selected : Bool
deriving DecidableEq, Repr

/-- Go `map[int]bool`. -/
abbrev IntBoolMap : Type := Finmap (fun _ : Int => Bool)

/-- Go `m[k]` on a `map[int]bool`: the stored value, `false` when absent. -/
def IntBoolMap.index (s : IntBoolMap) (k : Int) : Bool :=
  (s.lookup k).getD false

/-- Go `len(m)` on a `map[int]bool`. -/
def IntBoolMap.len (s : IntBoolMap) : Nat :=
  s.keys.card

/-! ## Session (`internal/ui.go`) -/

/-- The Bubble Tea model of the selection screen. -/
structure Model where
  apps : List AppItem
  cursor : Int
  selected : IntBoolMap
  done : Bool

/-- A `tea.Msg`: a `tea.KeyMsg` carrying the result of `msg.String()`, the
`tea.QuitMsg` that the command `tea.Quit` produces, or any other message
type. -/
inductive Msg where
  | key (s : String)
  | quit
  | other
deriving DecidableEq, Repr

/-- A `tea.Cmd` as returned by `Update`: `nil` or `tea.Quit`. -/
inductive Cmd where
  | nil
  | quit
deriving DecidableEq, Repr

/-- Selected returns whether the app at the given index is selected. -/
def Model.Selected (m : Model) (index : Int) : Bool :=
  m.selected.index index

/-- The loop `for i, app := range apps` of `InitialModel`, started at index
`i` with the map built so far. -/
def preselect : List AppItem → Int → IntBoolMap → IntBoolMap
  | [], _, selected => selected
  | app :: rest, i, selected =>
    preselect rest (i + 1) (if app.Selected then selected.insert i true else selected)

/-- InitialModel: pre-select recommended apps; `cursor` and `done` keep their
zero values. -/
def InitialModel (apps : List AppItem) : Model :=
  { apps := apps, cursor := 0, selected := preselect apps 0 ∅, done := false }

/-- Update, `internal/ui.go` lines 69-102. -/
def Model.Update (m : Model) (msg : Msg) : Model × Cmd :=
  match msg with
  | Msg.key s =>
    if s = "ctrl+c" ∨ s = "q" then
      (m, Cmd.quit)
    else if s = "up" ∨ s = "k" then
      (if m.cursor > 0 then { m with cursor := m.cursor - 1 } else m, Cmd.nil)
    else if s = "down" ∨ s = "j" then
      (if m.cursor < (m.apps.length : Int) - 1 then { m with cursor := m.cursor + 1 } else m,
        Cmd.nil)
    else if s = " " then
      (if m.selected.index m.cursor then { m with selected := m.selected.erase m.cursor }
        else { m with selected := m.selected.insert m.cursor true }, Cmd.nil)
    else if s = "enter" then
      ({ m with done := true }, Cmd.quit)
    else
      (m, Cmd.nil)
  | Msg.quit => (m, Cmd.nil)
  | Msg.other => (m, Cmd.nil)

/-- The session after feeding a finite sequence of messages to `Update`, one
after the other, keeping the returned model each time. -/
def Model.feed (m : Model) (msgs : List Msg) : Model :=
  msgs.foldl (fun acc msg => (acc.Update msg).1) m

/-! ## Installation step (`cmd/kamae/main.go`) -/

/-- The three slices `brewApps`, `brewCaskApps` and `masApps` that
`handleInstallation` fills, one per install mechanism. -/
structure Plan where
  brewApps : List String
  brewCaskApps : List String
  masApps : List String
deriving DecidableEq, Repr

/-- What `handleInstallation` does: it returns early after printing
"No applications selected. Exiting.", or it goes through the collected
applications and reports the three slices. -/
inductive Installation where
  | nothingSelected
  | installed (selectedApps : List AppItem) (plan : Plan)
deriving DecidableEq, Repr

/-- The loop `for i, app := range allApps` of `handleInstallation`
(lines 115-119), at index `i` with the slice `selectedApps` built so far. -/
def collectSelected (model : Model) : List AppItem → Int → List AppItem → List AppItem
  | [], _, selectedApps => selectedApps
  | app :: rest, i, selectedApps =>
    collectSelected model rest (i + 1)
      (if model.Selected i then selectedApps ++ [app] else selectedApps)

/-- The entry of `masApps` for an application: `fmt.Sprintf("%s (ID: %s)", ID, MasID)`. -/
def masEntry (app : App) : String :=
  app.ID ++ " (ID: " ++ app.MasID ++ ")"

/-- The loop `for _, app := range selectedApps` with its `switch` on
`app.App.Install` (lines 133-143), with the slices built so far; the switch
has no default case. -/
def groupByInstall : List AppItem → Plan → Plan
  | [], plan => plan
  | app :: rest, plan =>
    groupByInstall rest
      (if app.App.Install = "brew" then
        { plan with brewApps := plan.brewApps ++ [app.App.ID] }
      else if app.App.Install = "brew_cask" then
        { plan with brewCaskApps := plan.brewCaskApps ++ [app.App.ID] }
      else if app.App.Install = "mas" then
        { plan with masApps := plan.masApps ++ [masEntry app.App] }
      else plan)

/-- The data flow of `handleInstallation`, `cmd/kamae/main.go` lines 111-161. -/
def handleInstallation (model : Model) (allApps : List AppItem) : Installation :=
  let selectedApps := collectSelected model allApps 0 []
  if selectedApps.length = 0 then Installation.nothingSelected
  else Installation.installed selectedApps (groupByInstall selectedApps ⟨[], [], []⟩)

/-- The Bubble Tea event loop behind `p.Run()`, over the messages in the order
in which they reach the loop. A `tea.QuitMsg` ends the run and the current
model is the final model; every other message goes to `Update`, whose model
replaces the current one. The loop does not look at the command `Update`
returns: `tea.Quit` runs beside the loop and its `tea.QuitMsg` reaches the
loop as a message of its own, after the messages that were queued before it.
When the messages end without a `tea.QuitMsg`, the current model is
returned. -/
def runProgram (m : Model) : List Msg → Model
  | [] => m
  | msg :: rest =>
    match msg with
    | Msg.quit => m
    | _ => runProgram (m.Update msg).1 rest

/-- The interactive path of `main` (lines 43-56): run the program from
`InitialModel(apps)` on the messages that reach the event loop, then hand the
final model to `handleInstallation`. -/
def mainInteractive (apps : List AppItem) (msgs : List Msg) : Installation :=
  handleInstallation (runProgram (InitialModel apps) msgs) apps

/-! ## The scenario catalog of the specification -/

/-- Catalog `[A (Dev, recommended), B (Dev, optional), C (Util, recommended, mas)]`. -/
def scenarioCatalog : List AppItem :=
  [ ⟨⟨"A", "a", "brew", ""⟩, "Dev", "recommended", "A (recommended)", true⟩,
    ⟨⟨"B", "b", "brew_cask", ""⟩, "Dev", "optional", "B (optional)", false⟩,
    ⟨⟨"C", "c", "mas", "123"⟩, "Util", "recommended", "C (recommended)", true⟩ ]

/-- A catalog whose only application, selected by default, has the install
mechanism "unknown". -/
def unknownCatalog : List AppItem :=
  [ ⟨⟨"X", "x", "unknown", ""⟩, "Dev", "recommended", "X (recommended)", true⟩ ]

/-! ## Catalog building (`internal/manifest.go`) and the batch path -/

/-- Category represents a category of applications, Go `map[string][]App`.
The entries stand in the order in which `range` visits them in the call at
hand; Go leaves that order open, and every order is a value of this type. -/
abbrev Category : Type := AList (fun _ : String => List App)

/-- Manifest represents the complete application manifest. -/
structure Manifest where
  Recommended : Category
  Optional : Category

/-- The inner loop `for _, app := range apps` of `GetAppItems` with the slice
`items` built so far. The two copies of the loop differ in the constants
`priority`, `suffix` (appended to the name) and `selected`. -/
def appendItems (categoryName priority suffix : String) (selected : Bool) :
    List App → List AppItem → List AppItem
  | [], items => items
  | app :: rest, items =>
    appendItems categoryName priority suffix selected rest
      (items ++ [⟨app, categoryName, priority, app.Name ++ suffix, selected⟩])

/-- The outer loop `for categoryName, apps := range group` of `GetAppItems`
over the entries of one group, with the slice `items` built so far. -/
def appendGroup (priority suffix : String) (selected : Bool) :
    List (Sigma fun _ : String => List App) → List AppItem → List AppItem
  | [], items => items
  | entry :: rest, items =>
    appendGroup priority suffix selected rest
      (appendItems entry.1 priority suffix selected entry.2 items)

/-- GetAppItems converts the manifest into a flat list of AppItem structs with
recommended apps pre-selected (`internal/manifest.go` lines 54-86). -/
def Manifest.GetAppItems (m : Manifest) : List AppItem :=
  appendGroup "optional" " (optional)" false m.Optional.entries
    (appendGroup "recommended" " (recommended)" true m.Recommended.entries [])

/-- The loop `for _, app := range allApps` of `testInstallation`
(lines 63-67) with the slice `selectedApps` built so far. -/
def collectDefault : List AppItem → List AppItem → List AppItem
  | [], selectedApps => selectedApps
  | app :: rest, selectedApps =>
    collectDefault rest (if app.Selected then selectedApps ++ [app] else selectedApps)

/-- The data flow of `testInstallation`, `cmd/kamae/main.go` lines 59-109. -/
def testInstallation (allApps : List AppItem) : Installation :=
  let selectedApps := collectDefault allApps []
  if selectedApps.length = 0 then Installation.nothingSelected
  else Installation.installed selectedApps (groupByInstall selectedApps ⟨[], [], []⟩)

/-- How `main` ends once the manifest is loaded: a message and `os.Exit(status)`,
the batch path, or the interactive path. -/
inductive MainOutcome where
  | fatal (message : String) (status : Nat)
  | batch (result : Installation)
  | interactive (result : Installation)
deriving DecidableEq, Repr

/-- The part of `main` after `LoadManifest` (lines 28-56): `testFlag` says
whether the third argument is `--test`, `msgs` are the messages the program
run receives. -/
def mainAfterLoad (manifest : Manifest) (testFlag : Bool) (msgs : List Msg) : MainOutcome :=
  let apps := manifest.GetAppItems
  if apps.length = 0 then MainOutcome.fatal "No applications found in manifest" 1
  else if testFlag then MainOutcome.batch (testInstallation apps)
  else MainOutcome.interactive (mainInteractive apps msgs)

/-- A manifest with the applications of the scenario catalog. -/
def scenarioManifest : Manifest :=
  { Recommended :=
      ((∅ : Category).insert "Util" [⟨"C", "c", "mas", "123"⟩]).insert "Dev"
        [⟨"A", "a", "brew", ""⟩],
    Optional := (∅ : Category).insert "Dev" [⟨"B", "b", "brew_cask", ""⟩] }

/-- A manifest whose only category holds no application. -/
def emptyManifest : Manifest :=
  { Recommended := (∅ : Category).insert "Dev" [], Optional := ∅ }

/-! ## View (`internal/ui.go`) -/

/-- What `View` takes from outside the repository: `Render` of the six
lipgloss styles declared in `internal/ui.go`, and `strings.Title`. -/
structure Styles where
  titleStyle : String → String
  categoryStyle : String → String
  selectedStyle : String → String
  unselectedStyle : String → String
  helpStyle : String → String
  summaryStyle : String → String
  Title : String → String

/-- Styles that render a text as it is. -/
def plainStyles : Styles :=
  ⟨fun s => s, fun s => s, fun s => s, fun s => s, fun s => s, fun s => s, fun s => s⟩

/-- Go `map[string][]AppItem`, the local `categories` of `View`. -/
abbrev CategoryMap : Type := Finmap (fun _ : String => List AppItem)

/-- The loop `for _, app := range m.apps` of `View` (lines 117-119):
`categories[app.Category] = append(categories[app.Category], app)`. -/
def groupByCategory : List AppItem → CategoryMap → CategoryMap
  | [], categories => categories
  | app :: rest, categories =>
    groupByCategory rest
      (categories.insert app.Category ((categories.lookup app.Category).getD [] ++ [app]))

/-- The orders in which a `range` loop may visit `categories`: every key once. -/
def RangeOrder (categories : CategoryMap) (order : List String) : Prop :=
  order.Nodup ∧ order.toFinset = categories.keys

/-- One piece that `View` writes to its string builder: the title, the banner
of a pass, the header of a category, the line of the item at catalog index
`i`, the help text, the selection summary. -/
inductive Piece where
  | title
  | banner (text : String)
  | header (category : String)
  | item (i : Int) (cursor checked : String) (selected : Bool) (displayName : String)
  | help
  | summary (selectedCount : Nat)
deriving DecidableEq, Repr

/-- Whether a piece is an item line. -/
def Piece.isItem : Piece → Bool
  | Piece.item _ _ _ _ _ => true
  | _ => false

/-- The text `View` writes for a piece. -/
def Piece.render (st : Styles) : Piece → String
  | Piece.title => st.titleStyle "kamae - Bootstrap Application Installer" ++ "\n\n"
  | Piece.banner text => st.categoryStyle text ++ "\n"
  | Piece.header category => "\n  " ++ st.Title category ++ ":\n"
  | Piece.item _ cursor checked selected displayName =>
    (if selected then st.selectedStyle else st.unselectedStyle)
      ("    " ++ (cursor ++ " [" ++ checked ++ "] " ++ displayName)) ++ "\n"
  | Piece.help =>
    st.helpStyle
      "\nNavigation: ↑/↓ or j/k to move, space to toggle, enter to install, q to quit"
  | Piece.summary selectedCount =>
    st.summaryStyle ("\nSelected: " ++ toString selectedCount ++ " applications")

/-- The item line of `View` for catalog index `i` (lines 140-156): cursor
marker, check marker, style and display name. -/
def itemPiece (m : Model) (i : Int) (app : AppItem) : Piece :=
  Piece.item i (if m.cursor = i then ">" else " ") (if m.selected.index i then "✓" else " ")
    (m.selected.index i) app.DisplayName

/-- The loop `for i, app := range m.apps` inside a category of `View`
(lines 138-159 and 178-199), at index `i` with the pieces written so far. -/
def itemLines (m : Model) (category priority : String) :
    List AppItem → Int → List Piece → List Piece
  | [], _, out => out
  | app :: rest, i, out =>
    itemLines m category priority rest (i + 1)
      (if app.Category = category ∧ app.Priority = priority then out ++ [itemPiece m i app]
        else out)

/-- The loop `for category, apps := range categories` of one pass of `View`
(lines 127-161 for "recommended", 167-201 for "optional"), visiting the
categories in the given order, with the pieces written so far. -/
def renderPass (m : Model) (categories : CategoryMap) (priority : String) :
    List String → List Piece → List Piece
  | [], out => out
  | category :: rest, out =>
    renderPass m categories priority rest
      (if ((categories.lookup category).getD []).any (fun app => app.Priority = priority) then
        itemLines m category priority m.apps 0 (out ++ [Piece.header category])
      else out)

/-- The pieces `View` writes when the session is not done; `order1` and
`order2` are the orders in which the two `range` loops visit `categories`. -/
def Model.viewPieces (m : Model) (order1 order2 : List String) : List Piece :=
  let categories := groupByCategory m.apps ∅
  let b := [Piece.title, Piece.banner "RECOMMENDED APPLICATIONS"]
  let b := renderPass m categories "recommended" order1 b
  let b := renderPass m categories "optional" order2 (b ++ [Piece.banner "\nOPTIONAL APPLICATIONS"])
  b ++ [Piece.help, Piece.summary m.selected.len]

/-- View, `internal/ui.go` lines 104-211. -/
def Model.View (m : Model) (st : Styles) (order1 order2 : List String) : String :=
  if m.done then "" else String.join ((m.viewPieces order1 order2).map (Piece.render st))

/-! ## Invariants of a session -/

/-- The cursor invariant of the data model: inside the catalog, or `0` over an
empty catalog. -/
def CursorOk (m : Model) : Prop :=
  (m.apps = [] ∧ m.cursor = 0) ∨ (0 ≤ m.cursor ∧ m.cursor < (m.apps.length : Int))

/-- Every key of the selected map is an index of the catalog. -/
def KeysInRange (m : Model) : Prop :=
  ∀ i : Int, i ∈ m.selected → 0 ≤ i ∧ i < (m.apps.length : Int)

theorem preselect_lookup (apps : List AppItem) : ∀ (k : Int) (sel : IntBoolMap) (i : Int),
    (preselect apps k sel).lookup i =
      if k ≤ i ∧ (apps.get? (i - k).toNat).map AppItem.Selected = some true then some true
      else sel.lookup i := by
  induction apps with
  | nil => intro k sel i; simp [preselect]
  | cons app rest ih =>
    intro k sel i
    rw [preselect, ih]
    rcases lt_trichotomy i k with h | h | h
    · have h1 : ¬ (k + 1 ≤ i) := by omega
      have h2 : ¬ (k ≤ i) := by omega
      have h3 : i ≠ k := by omega
      simp only [h1, h2, false_and, if_false]
      split
      · exact Finmap.lookup_insert_of_ne _ h3
      · rfl
    · subst h
      have h1 : ¬ (i + 1 ≤ i) := by omega
      simp only [h1, false_and, if_false, le_refl, true_and, sub_self, Int.toNat_zero,
        List.get?_cons_zero, Option.map_some']
      cases hs : app.Selected
      · simp
      · simp [Finmap.lookup_insert]
    · have h1 : k + 1 ≤ i := by omega
      have h2 : k ≤ i := by omega
      have h3 : i ≠ k := by omega
      have h4 : (i - k).toNat = (i - (k + 1)).toNat + 1 := by omega
      simp only [h1, h2, true_and, h4, List.get?_cons_succ]
      split
      · rfl
      · split
        · exact Finmap.lookup_insert_of_ne _ h3
        · rfl

theorem Update_apps (m : Model) (msg : Msg) : (m.Update msg).1.apps = m.apps := by
  cases msg with
  | other => rfl
  | quit => rfl
  | key s =>
    simp only [Model.Update]
    split_ifs <;> rfl

theorem feed_apps (msgs : List Msg) : ∀ m : Model, (m.feed msgs).apps = m.apps := by
  induction msgs with
  | nil => intro m; rfl
  | cons msg rest ih =>
    intro m
    show (Model.feed (m.Update msg).1 rest).apps = m.apps
    rw [ih, Update_apps]

theorem feed_cons (m : Model) (msg : Msg) (rest : List Msg) :
    m.feed (msg :: rest) = Model.feed (m.Update msg).1 rest := rfl

theorem cursorOk_Update (m : Model) (msg : Msg) (h : CursorOk m) :
    CursorOk (m.Update msg).1 := by
  cases msg with
  | other => exact h
  | quit => exact h
  | key s =>
    unfold CursorOk at *
    simp only [Model.Update]
    rcases h with ⟨h1, h2⟩ | ⟨h1, h2⟩
    · left
      have h3 : ¬ (m.cursor < (m.apps.length : Int) - 1) := by simp [h1, h2]
      have h4 : ¬ (m.cursor > 0) := by omega
      split_ifs <;> exact ⟨h1, h2⟩
    · right
      split_ifs <;> constructor <;> simp only [] <;> omega

theorem cursorOk_feed (msgs : List Msg) : ∀ m : Model, CursorOk m → CursorOk (m.feed msgs) := by
  induction msgs with
  | nil => intro m h; exact h
  | cons msg rest ih =>
    intro m h
    rw [feed_cons]
    exact ih _ (cursorOk_Update m msg h)

theorem cursorOk_InitialModel (apps : List AppItem) : CursorOk (InitialModel apps) := by
  unfold CursorOk
  cases apps with
  | nil => left; exact ⟨rfl, rfl⟩
  | cons a rest => right; simp [InitialModel]

theorem InitialModel_lookup (apps : List AppItem) (i : Int) :
    (InitialModel apps).selected.lookup i =
      if 0 ≤ i ∧ (apps.get? i.toNat).map AppItem.Selected = some true then some true
      else none := by
  have h := preselect_lookup apps 0 ∅ i
  simpa [InitialModel] using h

theorem get?_map_some_lt (apps : List AppItem) (i : Int) (h0 : 0 ≤ i)
    (h : (apps.get? i.toNat).map AppItem.Selected = some true) : i < (apps.length : Int) := by
  cases hg : apps.get? i.toNat with
  | none => rw [hg] at h; simp at h
  | some a =>
    have hlt : i.toNat < apps.length := by
      rcases List.get?_eq_some.mp hg with ⟨hl, _⟩
      exact hl
    omega

theorem keysInRange_InitialModel (apps : List AppItem) : KeysInRange (InitialModel apps) := by
  intro i hi
  have hs : ((InitialModel apps).selected.lookup i).isSome := Finmap.lookup_isSome.mpr hi
  rw [InitialModel_lookup] at hs
  split at hs
  · rename_i hc
    exact ⟨hc.1, get?_map_some_lt apps i hc.1 hc.2⟩
  · simp at hs

theorem keysInRange_Update (m : Model) (msg : Msg)
    (hc : 0 ≤ m.cursor ∧ m.cursor < (m.apps.length : Int)) (hk : KeysInRange m) :
    KeysInRange (m.Update msg).1 := by
  cases msg with
  | other => exact hk
  | quit => exact hk
  | key s =>
    unfold KeysInRange at *
    simp only [Model.Update]
    split_ifs <;> intro i hi <;> simp only [] at hi ⊢
    all_goals first
      | exact hk i hi
      | exact hk i (Finmap.mem_erase.mp hi).2
      | (rcases Finmap.mem_insert.mp hi with h | h
         · rw [h]; exact hc
         · exact hk i h)

theorem keysInRange_feed (msgs : List Msg) : ∀ m : Model, m.apps ≠ [] → CursorOk m →
    KeysInRange m → KeysInRange (m.feed msgs) := by
  induction msgs with
  | nil => intro m _ _ hk; exact hk
  | cons msg rest ih =>
    intro m hne hc hk
    rw [feed_cons]
    have hc2 : 0 ≤ m.cursor ∧ m.cursor < (m.apps.length : Int) := by
      rcases hc with ⟨h1, _⟩ | h
      · exact absurd h1 hne
      · exact h
    exact ih _ (by rw [Update_apps]; exact hne) (cursorOk_Update m msg hc)
      (keysInRange_Update m msg hc2 hk)


/-! ## The session contract -/

/-- C1. For every catalog, the session built by `InitialModel` has as selected
set exactly the indices `i` with `catalog[i].Selected = true`: `Selected i`
answers true for these and no other index, the map holds exactly these keys
(each mapped to true), the cursor is 0 and the done flag is false. -/
theorem InitialModel_selected_exactly_defaults (apps : List AppItem) :
    (∀ i : Int, (InitialModel apps).Selected i = true ↔
        (0 ≤ i ∧ (apps.get? i.toNat).map AppItem.Selected = some true)) ∧
    (∀ i : Int, (InitialModel apps).selected.lookup i =
        if 0 ≤ i ∧ (apps.get? i.toNat).map AppItem.Selected = some true then some true
        else none) ∧
    (InitialModel apps).apps = apps ∧
    (InitialModel apps).cursor = 0 ∧
    (InitialModel apps).done = false := by
  refine ⟨?_, InitialModel_lookup apps, rfl, rfl, rfl⟩
  intro i
  unfold Model.Selected IntBoolMap.index
  rw [InitialModel_lookup]
  split <;> simp_all

/-- C2. For every catalog and every finite sequence of messages fed to
`Update` from `InitialModel catalog`, the cursor is `0` when the catalog is
empty and satisfies `0 ≤ cursor < len catalog` otherwise; moving up at cursor
`0` and moving down at the last index return the session unchanged. -/
theorem cursor_stays_in_catalog (apps : List AppItem) (msgs : List Msg) :
    ((apps = [] ∧ ((InitialModel apps).feed msgs).cursor = 0) ∨
      (apps ≠ [] ∧ 0 ≤ ((InitialModel apps).feed msgs).cursor ∧
        ((InitialModel apps).feed msgs).cursor < (apps.length : Int))) ∧
    (∀ (a : List AppItem) (sel : IntBoolMap) (d : Bool),
      (Model.Update ⟨a, 0, sel, d⟩ (Msg.key "up")).1 = ⟨a, 0, sel, d⟩ ∧
      (Model.Update ⟨a, 0, sel, d⟩ (Msg.key "k")).1 = ⟨a, 0, sel, d⟩) ∧
    (∀ (a : List AppItem) (sel : IntBoolMap) (d : Bool),
      (Model.Update ⟨a, (a.length : Int) - 1, sel, d⟩ (Msg.key "down")).1 =
        ⟨a, (a.length : Int) - 1, sel, d⟩ ∧
      (Model.Update ⟨a, (a.length : Int) - 1, sel, d⟩ (Msg.key "j")).1 =
        ⟨a, (a.length : Int) - 1, sel, d⟩) := by
  refine ⟨?_, ?_, ?_⟩
  · have h := cursorOk_feed msgs _ (cursorOk_InitialModel apps)
    unfold CursorOk at h
    rw [feed_apps] at h
    rcases h with ⟨h1, h2⟩ | ⟨h1, h2⟩
    · left; exact ⟨h1, h2⟩
    · right
      refine ⟨?_, h1, h2⟩
      intro he
      have : (InitialModel apps).apps = [] := he
      rw [this] at h2
      simp at h2
      omega
  · intro a sel d
    constructor <;> simp [Model.Update]
  · intro a sel d
    constructor <;> simp [Model.Update]

/-- C3 (as stated, refuted). Over the empty catalog, one toggle puts index `0`
into the selected set although `[0, 0)` holds no index. -/
theorem toggle_on_empty_catalog_selects_outside :
    (0 : Int) ∈ ((InitialModel []).feed [Msg.key " "]).selected ∧
    ((InitialModel []).feed [Msg.key " "]).Selected 0 = true ∧
    ¬ ((0 : Int) ≤ 0 ∧ (0 : Int) < (([] : List AppItem).length : Int)) := by
  refine ⟨?_, ?_, ?_⟩
  · decide
  · decide
  · decide

/-- C3 (amended). For every non-empty catalog and every finite sequence of
messages fed to `Update` from `InitialModel catalog`, every key of the selected
map, and so every index for which `Selected` answers true, lies in
`[0, len catalog)`. -/
theorem selected_within_nonempty_catalog (apps : List AppItem) (hne : apps ≠ [])
    (msgs : List Msg) (i : Int) :
    (i ∈ ((InitialModel apps).feed msgs).selected → 0 ≤ i ∧ i < (apps.length : Int)) ∧
    (((InitialModel apps).feed msgs).Selected i = true → 0 ≤ i ∧ i < (apps.length : Int)) := by
  have hk : KeysInRange ((InitialModel apps).feed msgs) :=
    keysInRange_feed msgs _ hne (cursorOk_InitialModel apps) (keysInRange_InitialModel apps)
  have key : i ∈ ((InitialModel apps).feed msgs).selected → 0 ≤ i ∧ i < (apps.length : Int) := by
    intro hi
    have h := hk i hi
    rw [feed_apps] at h
    exact h
  refine ⟨key, ?_⟩
  intro hs
  apply key
  apply Finmap.lookup_isSome.mp
  unfold Model.Selected IntBoolMap.index at hs
  cases hl : Finmap.lookup i ((InitialModel apps).feed msgs).selected with
  | none => rw [hl] at hs; simp at hs
  | some b => rfl

theorem Update_toggle (m : Model) :
    m.Update (Msg.key " ") =
      (if m.selected.index m.cursor then { m with selected := m.selected.erase m.cursor }
        else { m with selected := m.selected.insert m.cursor true }, Cmd.nil) := by
  simp [Model.Update]

theorem toggle_cursor (m : Model) : (m.Update (Msg.key " ")).1.cursor = m.cursor := by
  rw [Update_toggle]; dsimp only; split <;> rfl

theorem toggle_lookup_cursor (m : Model) :
    (m.Update (Msg.key " ")).1.selected.lookup m.cursor =
      (if m.Selected m.cursor then none else some true) := by
  rw [Update_toggle]
  unfold Model.Selected
  cases hs : m.selected.index m.cursor
  · simp [Finmap.lookup_insert]
  · simp [Finmap.lookup_erase]

theorem toggle_lookup_ne (m : Model) (i : Int) (hi : i ≠ m.cursor) :
    (m.Update (Msg.key " ")).1.selected.lookup i = m.selected.lookup i := by
  rw [Update_toggle]
  dsimp only
  split
  · exact Finmap.lookup_erase_ne hi
  · exact Finmap.lookup_insert_of_ne _ hi

theorem toggle_Selected_cursor (m : Model) :
    (m.Update (Msg.key " ")).1.Selected m.cursor = !(m.Selected m.cursor) := by
  have h := toggle_lookup_cursor m
  unfold Model.Selected IntBoolMap.index at *
  rw [h]
  cases (Finmap.lookup m.cursor m.selected).getD false <;> rfl

theorem toggle_Selected_ne (m : Model) (i : Int) (hi : i ≠ m.cursor) :
    (m.Update (Msg.key " ")).1.Selected i = m.Selected i :=
  congrArg (fun o => o.getD false) (toggle_lookup_ne m i hi)

/-- C4. For every session, `Update` with the space key flips the answer of
`Selected` at the cursor index (the key is erased when it was selected and
stored with value true when it was not), leaves every other index of the
selected map as it was, leaves cursor, done flag and catalog unchanged, and
returns no command. -/
theorem toggle_flips_cursor_index_only (m : Model) :
    (m.Update (Msg.key " ")).1.Selected m.cursor = !(m.Selected m.cursor) ∧
    (m.Update (Msg.key " ")).1.selected.lookup m.cursor =
      (if m.Selected m.cursor then none else some true) ∧
    (∀ i : Int, i ≠ m.cursor →
      (m.Update (Msg.key " ")).1.selected.lookup i = m.selected.lookup i ∧
      (m.Update (Msg.key " ")).1.Selected i = m.Selected i) ∧
    (m.Update (Msg.key " ")).1.cursor = m.cursor ∧
    (m.Update (Msg.key " ")).1.done = m.done ∧
    (m.Update (Msg.key " ")).1.apps = m.apps ∧
    (m.Update (Msg.key " ")).2 = Cmd.nil := by
  refine ⟨toggle_Selected_cursor m, toggle_lookup_cursor m,
    fun i hi => ⟨toggle_lookup_ne m i hi, toggle_Selected_ne m i hi⟩, toggle_cursor m, ?_,
    Update_apps m _, ?_⟩
  · rw [Update_toggle]; dsimp only; split <;> rfl
  · rw [Update_toggle]

/-- C5. Toggling is an involution on the selected set: for every session,
two toggle events in a row leave the cursor where it was and make
`Selected i` answer, for every index `i`, what it answered before them. -/
theorem toggle_twice_restores_Selected (m : Model) (i : Int) :
    ((m.Update (Msg.key " ")).1.Update (Msg.key " ")).1.Selected i = m.Selected i ∧
    ((m.Update (Msg.key " ")).1.Update (Msg.key " ")).1.cursor = m.cursor := by
  have hc : (m.Update (Msg.key " ")).1.cursor = m.cursor := toggle_cursor m
  refine ⟨?_, by rw [toggle_cursor, hc]⟩
  by_cases hi : i = m.cursor
  · subst hi
    have h2 := toggle_Selected_cursor (m.Update (Msg.key " ")).1
    rw [hc] at h2
    rw [h2, toggle_Selected_cursor, Bool.not_not]
  · have hi2 : i ≠ (m.Update (Msg.key " ")).1.cursor := by rw [hc]; exact hi
    rw [toggle_Selected_ne _ i hi2, toggle_Selected_ne m i hi]

/-- C6 (as stated, refuted). Over the empty catalog the cursor is `0` and
moving down leaves it at `0`, while `min (len catalog - 1) (cursor + 1)` is `-1`. -/
theorem move_down_on_empty_catalog_not_min :
    ((InitialModel []).Update (Msg.key "down")).1.cursor = 0 ∧
    ((InitialModel []).Update (Msg.key "down")).1.cursor ≠
      min ((((InitialModel []).apps.length : Int)) - 1) ((InitialModel []).cursor + 1) := by
  constructor <;> decide

/-- C6 (amended). For every session whose cursor lies in `[0, len catalog)`,
which is every session over a non-empty catalog, moving up (up / k) sets the
cursor to `max 0 (cursor - 1)` and moving down (down / j) sets it to
`min (len catalog - 1) (cursor + 1)`; both leave the selected map, the done
flag and the catalog unchanged and return no command. -/
theorem move_sets_cursor_clamped (m : Model) (h0 : 0 ≤ m.cursor)
    (h1 : m.cursor < (m.apps.length : Int)) :
    m.Update (Msg.key "up") = ({ m with cursor := max 0 (m.cursor - 1) }, Cmd.nil) ∧
    m.Update (Msg.key "k") = ({ m with cursor := max 0 (m.cursor - 1) }, Cmd.nil) ∧
    m.Update (Msg.key "down") =
      ({ m with cursor := min ((m.apps.length : Int) - 1) (m.cursor + 1) }, Cmd.nil) ∧
    m.Update (Msg.key "j") =
      ({ m with cursor := min ((m.apps.length : Int) - 1) (m.cursor + 1) }, Cmd.nil) := by
  have hup : (if m.cursor > 0 then { m with cursor := m.cursor - 1 } else m) =
      { m with cursor := max 0 (m.cursor - 1) } := by
    split
    · rw [max_eq_right (by omega)]
    · have hz : m.cursor = 0 := by omega
      rw [max_eq_left (by omega)]
      cases m
      simp only [Model.mk.injEq, true_and, and_true] at hz ⊢
      exact hz
  have hdown : (if m.cursor < (m.apps.length : Int) - 1 then { m with cursor := m.cursor + 1 }
      else m) = { m with cursor := min ((m.apps.length : Int) - 1) (m.cursor + 1) } := by
    split
    · rw [min_eq_right (by omega)]
    · have hz : m.cursor = (m.apps.length : Int) - 1 := by omega
      rw [min_eq_left (by omega)]
      cases m
      simp only [Model.mk.injEq, true_and, and_true] at hz ⊢
      exact hz
  refine ⟨?_, ?_, ?_, ?_⟩
  · simp only [Model.Update]; simp [hup]
  · simp only [Model.Update]; simp [hup]
  · simp only [Model.Update]; simp [hdown]
  · simp only [Model.Update]; simp [hdown]

/-- Witness for C6 (amended): moving down on the fresh scenario session. -/
theorem move_sets_cursor_clamped_witness :
    (0 : Int) ≤ (InitialModel scenarioCatalog).cursor ∧
    (InitialModel scenarioCatalog).cursor < ((InitialModel scenarioCatalog).apps.length : Int) ∧
    (InitialModel scenarioCatalog).Update (Msg.key "down") =
      ({ InitialModel scenarioCatalog with cursor := 1 }, Cmd.nil) :=
  ⟨by decide, by decide,
    (move_sets_cursor_clamped (InitialModel scenarioCatalog) (by decide) (by decide)).2.2.1⟩

/-! ## Lemmas on the installation step -/

theorem collectSelected_congr (m1 m2 : Model) (h : m1.selected = m2.selected)
    (apps : List AppItem) : ∀ (i : Int) (acc : List AppItem),
    collectSelected m1 apps i acc = collectSelected m2 apps i acc := by
  induction apps with
  | nil => intro i acc; rfl
  | cons app rest ih =>
    intro i acc
    simp only [collectSelected, Model.Selected, h, ih]

theorem groupByInstall_eq (l : List AppItem) : ∀ plan : Plan,
    groupByInstall l plan =
      ⟨plan.brewApps ++ (l.filter (fun a => a.App.Install = "brew")).map (fun a => a.App.ID),
       plan.brewCaskApps ++
         (l.filter (fun a => a.App.Install = "brew_cask")).map (fun a => a.App.ID),
       plan.masApps ++ (l.filter (fun a => a.App.Install = "mas")).map (fun a => masEntry a.App)⟩ := by
  induction l with
  | nil => intro plan; simp [groupByInstall]
  | cons app rest ih =>
    intro plan
    rw [groupByInstall, ih]
    by_cases h1 : app.App.Install = "brew"
    · simp [h1, List.filter]
    · by_cases h2 : app.App.Install = "brew_cask"
      · simp [h2, List.filter]
      · by_cases h3 : app.App.Install = "mas"
        · simp [h3, List.filter]
        · simp [h1, h2, h3, List.filter]

theorem filter_install_perm (l : List AppItem)
    (h : ∀ a ∈ l, a.App.Install = "brew" ∨ a.App.Install = "brew_cask" ∨ a.App.Install = "mas") :
    (l.filter (fun a => a.App.Install = "brew") ++
      l.filter (fun a => a.App.Install = "brew_cask") ++
      l.filter (fun a => a.App.Install = "mas")).Perm l := by
  induction l with
  | nil => simp
  | cons app rest ih =>
    have ih2 := ih (fun a ha => h a (List.mem_cons_of_mem _ ha))
    rcases h app (List.mem_cons_self _ _) with h1 | h1 | h1
    · simp only [List.filter, h1, decide_True, String.reduceEq, decide_False, List.cons_append]
      exact List.Perm.cons _ ih2
    · simp only [List.filter, h1, decide_True, String.reduceEq, decide_False]
      refine List.Perm.trans ?_ (List.Perm.cons _ ih2)
      simp only [List.append_assoc]
      exact List.perm_middle
    · simp only [List.filter, h1, decide_True, String.reduceEq, decide_False]
      refine List.Perm.trans ?_ (List.Perm.cons _ ih2)
      exact List.perm_middle

/-! ## Confirm, quit and the installation plan -/

/-- C8 (the code at the failing input). On the scenario catalog a run ended by
`q` hands `handleInstallation` the two applications still selected, and the
outcome is the one of a run ended by enter, not "nothing selected". -/
theorem quit_still_installs_selection :
    mainInteractive scenarioCatalog [Msg.key "q"] =
      Installation.installed
        [ ⟨⟨"A", "a", "brew", ""⟩, "Dev", "recommended", "A (recommended)", true⟩,
          ⟨⟨"C", "c", "mas", "123"⟩, "Util", "recommended", "C (recommended)", true⟩ ]
        ⟨["a"], [], ["c (ID: 123)"]⟩ ∧
    mainInteractive scenarioCatalog [Msg.key "q"] ≠ Installation.nothingSelected ∧
    mainInteractive scenarioCatalog [Msg.key "q"] =
      mainInteractive scenarioCatalog [Msg.key "enter"] := by
  refine ⟨by decide, by decide, by decide⟩

/-- C9 (as stated, refuted). On a fresh session `q` returns a model whose done
flag is false, while enter returns one whose done flag is true. -/
theorem quit_leaves_done_false :
    ((InitialModel scenarioCatalog).Update (Msg.key "q")).1.done = false ∧
    ((InitialModel scenarioCatalog).Update (Msg.key "ctrl+c")).1.done = false ∧
    ((InitialModel scenarioCatalog).Update (Msg.key "enter")).1.done = true := by
  refine ⟨by decide, by decide, by decide⟩

theorem Update_done (m : Model) (msg : Msg) :
    (m.Update msg).1.done = (if msg = Msg.key "enter" then true else m.done) := by
  cases msg with
  | other => rfl
  | quit => rfl
  | key s =>
    by_cases hs : s = "enter"
    · subst hs
      simp [Model.Update]
    · have hne : Msg.key s ≠ Msg.key "enter" := fun e => hs (Msg.key.inj e)
      rw [if_neg hne]
      simp only [Model.Update]
      split_ifs <;> rfl

theorem feed_done_false (msgs : List Msg) : ∀ m : Model, m.done = false →
    Msg.key "enter" ∉ msgs → (m.feed msgs).done = false := by
  induction msgs with
  | nil => intro m h _; exact h
  | cons msg rest ih =>
    intro m h hn
    rw [feed_cons]
    have hmsg : msg ≠ Msg.key "enter" := fun e => hn (by rw [e]; exact List.mem_cons_self _ _)
    have hrest : Msg.key "enter" ∉ rest := fun hm => hn (List.mem_cons_of_mem _ hm)
    apply ih _ _ hrest
    rw [Update_done, if_neg hmsg]
    exact h

/-- C9 (amended). For every session, `Update` with `q` or `ctrl+c` returns the
session unchanged, so its done flag keeps its value (false on a fresh
session), together with `tea.Quit`, the command that enter returns too; only
enter sets the done flag: after any message the flag is true when the message
is enter and is what it was before otherwise, so it is false along every
sequence of messages from `InitialModel` that holds no enter; and `Update`
returns `tea.Quit` for `q`, `ctrl+c` and enter and for no other message. -/
theorem quit_returns_session_unchanged (m : Model) (apps : List AppItem) (msg : Msg)
    (msgs : List Msg) :
    m.Update (Msg.key "q") = (m, Cmd.quit) ∧
    m.Update (Msg.key "ctrl+c") = (m, Cmd.quit) ∧
    ((InitialModel apps).Update (Msg.key "q")).1.done = false ∧
    ((InitialModel apps).Update (Msg.key "ctrl+c")).1.done = false ∧
    (m.Update (Msg.key "enter")).2 = Cmd.quit ∧
    (m.Update (Msg.key "enter")).1.done = true ∧
    (m.Update msg).1.done = (if msg = Msg.key "enter" then true else m.done) ∧
    (Msg.key "enter" ∉ msgs → ((InitialModel apps).feed msgs).done = false) ∧
    ((m.Update msg).2 = Cmd.quit ↔
      (msg = Msg.key "q" ∨ msg = Msg.key "ctrl+c" ∨ msg = Msg.key "enter")) := by
  refine ⟨?_, ?_, ?_, ?_, ?_, ?_, Update_done m msg,
    feed_done_false msgs (InitialModel apps) rfl, ?_⟩
  · simp [Model.Update]
  · simp [Model.Update]
  · simp [Model.Update, InitialModel]
  · simp [Model.Update, InitialModel]
  · simp [Model.Update]
  · simp [Model.Update]
  · cases msg with
    | other => simp [Model.Update]
    | quit => simp [Model.Update]
    | key s =>
      simp only [Model.Update, Msg.key.injEq]
      split_ifs with h1 h2 h3 h4 h5
      · rcases h1 with h | h
        · simp [h]
        · simp [h]
      · simp only [false_iff, reduceCtorEq]
        rintro (h | h | h)
        · exact h1 (Or.inr h)
        · exact h1 (Or.inl h)
        · rcases h2 with h2 | h2 <;> rw [h2] at h <;> exact absurd h (by decide)
      · simp only [false_iff, reduceCtorEq]
        rintro (h | h | h)
        · exact h1 (Or.inr h)
        · exact h1 (Or.inl h)
        · rcases h3 with h3 | h3 <;> rw [h3] at h <;> exact absurd h (by decide)
      · simp only [false_iff, reduceCtorEq]
        rintro (h | h | h)
        · exact h1 (Or.inr h)
        · exact h1 (Or.inl h)
        · rw [h4] at h; exact absurd h (by decide)
      · simp [h5]
      · simp only [false_iff, reduceCtorEq]
        rintro (h | h | h)
        · exact h1 (Or.inr h)
        · exact h1 (Or.inl h)
        · exact h5 h

/-- C10 (as stated, refuted). A selected application with install mechanism
"unknown" is collected but enters none of the three sequences: one
application is collected, its identifier appears in no sequence and the
sequences hold no entry at all. -/
theorem unknown_mechanism_dropped_from_plan :
    handleInstallation (InitialModel unknownCatalog) unknownCatalog =
      Installation.installed unknownCatalog ⟨[], [], []⟩ ∧
    (collectSelected (InitialModel unknownCatalog) unknownCatalog 0 []).length = 1 ∧
    (groupByInstall (collectSelected (InitialModel unknownCatalog) unknownCatalog 0 [])
        ⟨[], [], []⟩).brewApps.length +
      (groupByInstall (collectSelected (InitialModel unknownCatalog) unknownCatalog 0 [])
        ⟨[], [], []⟩).brewCaskApps.length +
      (groupByInstall (collectSelected (InitialModel unknownCatalog) unknownCatalog 0 [])
        ⟨[], [], []⟩).masApps.length = 0 := by
  refine ⟨by decide, by decide, by decide⟩

/-- C10 (amended). For every session and catalog in which every collected
application has install mechanism brew, brew_cask or mas, the three sequences
built by `handleInstallation` partition the collected applications: each
sequence lists, in order, the collected applications of its mechanism (by ID,
for mas by ID and store ID), the three groups together are a permutation of
the collected applications, and the number of entries across the three
sequences is the number of collected applications. -/
theorem plan_partitions_recognised (model : Model) (allApps : List AppItem)
    (h : ∀ a ∈ collectSelected model allApps 0 [],
      a.App.Install = "brew" ∨ a.App.Install = "brew_cask" ∨ a.App.Install = "mas") :
    handleInstallation model allApps =
      (if (collectSelected model allApps 0 []).length = 0 then Installation.nothingSelected
       else Installation.installed (collectSelected model allApps 0 [])
        (groupByInstall (collectSelected model allApps 0 []) ⟨[], [], []⟩)) ∧
    (groupByInstall (collectSelected model allApps 0 []) ⟨[], [], []⟩).brewApps =
      ((collectSelected model allApps 0 []).filter (fun a => a.App.Install = "brew")).map
        (fun a => a.App.ID) ∧
    (groupByInstall (collectSelected model allApps 0 []) ⟨[], [], []⟩).brewCaskApps =
      ((collectSelected model allApps 0 []).filter (fun a => a.App.Install = "brew_cask")).map
        (fun a => a.App.ID) ∧
    (groupByInstall (collectSelected model allApps 0 []) ⟨[], [], []⟩).masApps =
      ((collectSelected model allApps 0 []).filter (fun a => a.App.Install = "mas")).map
        (fun a => masEntry a.App) ∧
    ((collectSelected model allApps 0 []).filter (fun a => a.App.Install = "brew") ++
      (collectSelected model allApps 0 []).filter (fun a => a.App.Install = "brew_cask") ++
      (collectSelected model allApps 0 []).filter (fun a => a.App.Install = "mas")).Perm
      (collectSelected model allApps 0 []) ∧
    (groupByInstall (collectSelected model allApps 0 []) ⟨[], [], []⟩).brewApps.length +
      (groupByInstall (collectSelected model allApps 0 []) ⟨[], [], []⟩).brewCaskApps.length +
      (groupByInstall (collectSelected model allApps 0 []) ⟨[], [], []⟩).masApps.length =
      (collectSelected model allApps 0 []).length := by
  have hp := filter_install_perm _ h
  refine ⟨rfl, ?_, ?_, ?_, hp, ?_⟩
  · rw [groupByInstall_eq]; rfl
  · rw [groupByInstall_eq]; rfl
  · rw [groupByInstall_eq]; rfl
  · have hl := hp.length_eq
    rw [groupByInstall_eq]
    simp only [List.nil_append, List.length_map]
    simp only [List.length_append] at hl
    exact hl

/-- Witness for C10 (amended): the default selection of the scenario catalog. -/
theorem plan_partitions_recognised_witness :
    (∀ a ∈ collectSelected (InitialModel scenarioCatalog) scenarioCatalog 0 [],
      a.App.Install = "brew" ∨ a.App.Install = "brew_cask" ∨ a.App.Install = "mas") ∧
    (groupByInstall (collectSelected (InitialModel scenarioCatalog) scenarioCatalog 0 [])
        ⟨[], [], []⟩).brewApps.length +
      (groupByInstall (collectSelected (InitialModel scenarioCatalog) scenarioCatalog 0 [])
        ⟨[], [], []⟩).brewCaskApps.length +
      (groupByInstall (collectSelected (InitialModel scenarioCatalog) scenarioCatalog 0 [])
        ⟨[], [], []⟩).masApps.length =
      (collectSelected (InitialModel scenarioCatalog) scenarioCatalog 0 []).length :=
  ⟨by decide, (plan_partitions_recognised (InitialModel scenarioCatalog) scenarioCatalog
    (by decide)).2.2.2.2.2⟩

/-- Witness for C3 (amended): the scenario catalog after moving down and
toggling index 1. -/
theorem selected_within_nonempty_catalog_witness :
    scenarioCatalog ≠ [] ∧
    (1 : Int) ∈ ((InitialModel scenarioCatalog).feed [Msg.key "down", Msg.key " "]).selected ∧
    ((0 : Int) ≤ 1 ∧ (1 : Int) < (scenarioCatalog.length : Int)) :=
  ⟨by decide, by decide,
    (selected_within_nonempty_catalog scenarioCatalog (by decide)
      [Msg.key "down", Msg.key " "] 1).1 (by decide)⟩

/-! ## Catalog building, the batch path and unknown mechanisms -/

theorem appendItems_eq (c p s : String) (sel : Bool) (apps : List App) :
    ∀ items : List AppItem, appendItems c p s sel apps items =
      items ++ apps.map (fun app => ⟨app, c, p, app.Name ++ s, sel⟩) := by
  induction apps with
  | nil => intro items; simp [appendItems]
  | cons app rest ih => intro items; simp [appendItems, ih]

theorem appendGroup_eq (p s : String) (sel : Bool)
    (entries : List (Sigma fun _ : String => List App)) :
    ∀ items : List AppItem, appendGroup p s sel entries items =
      items ++ entries.flatMap
        (fun e => e.2.map (fun app => (⟨app, e.1, p, app.Name ++ s, sel⟩ : AppItem))) := by
  induction entries with
  | nil => intro items; simp [appendGroup]
  | cons e rest ih => intro items; simp [appendGroup, ih, appendItems_eq]

theorem GetAppItems_eq (m : Manifest) :
    m.GetAppItems =
      m.Recommended.entries.flatMap (fun e => e.2.map (fun app =>
        (⟨app, e.1, "recommended", app.Name ++ " (recommended)", true⟩ : AppItem))) ++
      m.Optional.entries.flatMap (fun e => e.2.map (fun app =>
        (⟨app, e.1, "optional", app.Name ++ " (optional)", false⟩ : AppItem))) := by
  simp [Manifest.GetAppItems, appendGroup_eq]

theorem length_flatMap_items (p s : String) (sel : Bool)
    (entries : List (Sigma fun _ : String => List App)) :
    (entries.flatMap
      (fun e => e.2.map (fun app => (⟨app, e.1, p, app.Name ++ s, sel⟩ : AppItem)))).length =
      (entries.map (fun e => e.2.length)).sum := by
  induction entries with
  | nil => rfl
  | cons e rest ih => simp [ih]

theorem collectDefault_eq (apps : List AppItem) : ∀ acc : List AppItem,
    collectDefault apps acc = acc ++ apps.filter (fun a => a.Selected) := by
  induction apps with
  | nil => intro acc; simp [collectDefault]
  | cons app rest ih =>
    intro acc
    rw [collectDefault, ih]
    cases h : app.Selected <;> simp [List.filter, h]

theorem collectSelected_of_agree (model : Model) (apps : List AppItem) :
    ∀ (k : Int) (acc : List AppItem),
      (∀ (n : Nat) (a : AppItem), apps.get? n = some a → model.Selected (k + n) = a.Selected) →
      collectSelected model apps k acc = acc ++ apps.filter (fun a => a.Selected) := by
  induction apps with
  | nil => intro k acc _; simp [collectSelected]
  | cons app rest ih =>
    intro k acc h
    have h0 : model.Selected k = app.Selected := by
      have := h 0 app rfl
      simpa using this
    have hr : ∀ (n : Nat) (a : AppItem), rest.get? n = some a →
        model.Selected (k + 1 + n) = a.Selected := by
      intro n a hn
      have := h (n + 1) a (by simpa using hn)
      rw [← this]
      congr 1
      push_cast
      ring
    rw [collectSelected, ih (k + 1) _ hr, h0]
    cases hs : app.Selected <;> simp [List.filter, hs]

theorem InitialModel_Selected_get (apps : List AppItem) (n : Nat) (a : AppItem)
    (h : apps.get? n = some a) : (InitialModel apps).Selected (n : Int) = a.Selected := by
  unfold Model.Selected IntBoolMap.index
  rw [InitialModel_lookup]
  simp only [Int.toNat_ofNat, h, Option.map_some', Option.some.injEq, Int.natCast_nonneg, true_and]
  cases a.Selected <;> simp

theorem collectSelected_InitialModel (apps : List AppItem) :
    collectSelected (InitialModel apps) apps 0 [] = apps.filter (fun a => a.Selected) := by
  have h := collectSelected_of_agree (InitialModel apps) apps 0 []
    (fun n a hn => by simpa using InitialModel_Selected_get apps n a hn)
  simpa using h

theorem filter_install_length (l : List AppItem) :
    (l.filter (fun a => a.App.Install = "brew")).length +
      (l.filter (fun a => a.App.Install = "brew_cask")).length +
      (l.filter (fun a => a.App.Install = "mas")).length =
    (l.filter (fun a => a.App.Install = "brew" ∨ a.App.Install = "brew_cask" ∨
      a.App.Install = "mas")).length := by
  induction l with
  | nil => rfl
  | cons app rest ih =>
    by_cases h1 : app.App.Install = "brew"
    · simp [List.filter, h1] at ih ⊢; omega
    · by_cases h2 : app.App.Install = "brew_cask"
      · simp [List.filter, h1, h2] at ih ⊢; omega
      · by_cases h3 : app.App.Install = "mas"
        · simp [List.filter, h1, h2, h3] at ih ⊢; omega
        · simp [List.filter, h1, h2, h3] at ih ⊢; omega

/-- C11 (as stated, refuted). Confirming the default selection of a catalog
whose application has install mechanism "unknown" ends as a completed
installation report, on the interactive and on the batch path alike: no error
is raised, and the application is in none of the three sequences. -/
theorem unknown_mechanism_raises_no_error :
    mainInteractive unknownCatalog [Msg.key "enter"] =
      Installation.installed unknownCatalog ⟨[], [], []⟩ ∧
    testInstallation unknownCatalog = Installation.installed unknownCatalog ⟨[], [], []⟩ := by
  refine ⟨by decide, by decide⟩

/-- C11 (amended). For every session and catalog in which some collected
application has an install mechanism other than brew, brew_cask and mas,
`handleInstallation` raises no error: it completes with the report of all
collected applications, that application among them, while the three
sequences hold one entry for each collected application of a recognised
mechanism only, so fewer entries than collected applications. -/
theorem unknown_mechanism_completes_without_entry (model : Model) (allApps : List AppItem)
    (a : AppItem) (ha : a ∈ collectSelected model allApps 0 [])
    (hu : ¬ (a.App.Install = "brew" ∨ a.App.Install = "brew_cask" ∨ a.App.Install = "mas")) :
    handleInstallation model allApps =
      Installation.installed (collectSelected model allApps 0 [])
        (groupByInstall (collectSelected model allApps 0 []) ⟨[], [], []⟩) ∧
    (groupByInstall (collectSelected model allApps 0 []) ⟨[], [], []⟩).brewApps.length +
      (groupByInstall (collectSelected model allApps 0 []) ⟨[], [], []⟩).brewCaskApps.length +
      (groupByInstall (collectSelected model allApps 0 []) ⟨[], [], []⟩).masApps.length =
      ((collectSelected model allApps 0 []).filter (fun b => b.App.Install = "brew" ∨
        b.App.Install = "brew_cask" ∨ b.App.Install = "mas")).length ∧
    (groupByInstall (collectSelected model allApps 0 []) ⟨[], [], []⟩).brewApps.length +
      (groupByInstall (collectSelected model allApps 0 []) ⟨[], [], []⟩).brewCaskApps.length +
      (groupByInstall (collectSelected model allApps 0 []) ⟨[], [], []⟩).masApps.length <
      (collectSelected model allApps 0 []).length := by
  have hne : (collectSelected model allApps 0 []).length ≠ 0 := by
    intro h0
    rw [List.length_eq_zero] at h0
    rw [h0] at ha
    exact absurd ha (List.not_mem_nil a)
  have htot : (groupByInstall (collectSelected model allApps 0 []) ⟨[], [], []⟩).brewApps.length +
      (groupByInstall (collectSelected model allApps 0 []) ⟨[], [], []⟩).brewCaskApps.length +
      (groupByInstall (collectSelected model allApps 0 []) ⟨[], [], []⟩).masApps.length =
      ((collectSelected model allApps 0 []).filter (fun b => b.App.Install = "brew" ∨
        b.App.Install = "brew_cask" ∨ b.App.Install = "mas")).length := by
    rw [groupByInstall_eq]
    simp only [List.nil_append, List.length_map]
    exact filter_install_length _
  refine ⟨?_, htot, ?_⟩
  · simp only [handleInstallation, hne, if_false]
  · rw [htot]
    apply List.length_filter_lt_length_iff_exists.mpr
    exact ⟨a, ha, by simpa using hu⟩

/-- Witness for C11 (amended): the fresh session over the catalog with the
"unknown" mechanism. -/
theorem unknown_mechanism_completes_without_entry_witness :
    handleInstallation (InitialModel unknownCatalog) unknownCatalog =
      Installation.installed (collectSelected (InitialModel unknownCatalog) unknownCatalog 0 [])
        (groupByInstall (collectSelected (InitialModel unknownCatalog) unknownCatalog 0 [])
          ⟨[], [], []⟩) :=
  (unknown_mechanism_completes_without_entry (InitialModel unknownCatalog) unknownCatalog
    ⟨⟨"X", "x", "unknown", ""⟩, "Dev", "recommended", "X (recommended)", true⟩
    (by decide) (by decide)).1

/-- C12. For every manifest, `GetAppItems` emits, group by group and category
by category in the order visited, one item per application, carrying the
application and its category name, with priority recommended and
Selected = true for the recommended group and priority optional and
Selected = false for the optional group; the catalog length is the number of
applications of both groups, and an emitted item has Selected = true exactly
when its priority is recommended. -/
theorem GetAppItems_one_item_per_application (m : Manifest) :
    m.GetAppItems =
      m.Recommended.entries.flatMap (fun e => e.2.map (fun app =>
        (⟨app, e.1, "recommended", app.Name ++ " (recommended)", true⟩ : AppItem))) ++
      m.Optional.entries.flatMap (fun e => e.2.map (fun app =>
        (⟨app, e.1, "optional", app.Name ++ " (optional)", false⟩ : AppItem))) ∧
    m.GetAppItems.length =
      (m.Recommended.entries.map (fun e => e.2.length)).sum +
      (m.Optional.entries.map (fun e => e.2.length)).sum ∧
    (∀ item ∈ m.GetAppItems, (item.Selected = true ↔ item.Priority = "recommended")) ∧
    (∀ item ∈ m.GetAppItems, item.Priority = "recommended" ∨ item.Priority = "optional") := by
  refine ⟨GetAppItems_eq m, ?_, ?_, ?_⟩
  · rw [GetAppItems_eq, List.length_append, length_flatMap_items, length_flatMap_items]
  · intro item hi
    rw [GetAppItems_eq] at hi
    simp only [List.mem_append, List.mem_flatMap, List.mem_map] at hi
    rcases hi with ⟨e, _, app, _, rfl⟩ | ⟨e, _, app, _, rfl⟩ <;> simp
  · intro item hi
    rw [GetAppItems_eq] at hi
    simp only [List.mem_append, List.mem_flatMap, List.mem_map] at hi
    rcases hi with ⟨e, _, app, _, rfl⟩ | ⟨e, _, app, _, rfl⟩ <;> simp

/-- C13. The batch path equals an immediate confirm on a fresh session: for
every catalog, `testInstallation` collects the same applications and reports
the same three sequences as `handleInstallation` on the model that
`InitialModel` followed by enter yields, which is also the outcome of the
interactive path when enter is the first key. -/
theorem batch_equals_immediate_confirm (apps : List AppItem) :
    collectDefault apps [] =
      collectSelected ((InitialModel apps).Update (Msg.key "enter")).1 apps 0 [] ∧
    testInstallation apps =
      handleInstallation ((InitialModel apps).Update (Msg.key "enter")).1 apps ∧
    testInstallation apps = mainInteractive apps [Msg.key "enter"] := by
  have hu : (InitialModel apps).Update (Msg.key "enter") =
      ({ InitialModel apps with done := true }, Cmd.quit) := by
    simp [Model.Update]
  have hc : collectSelected ((InitialModel apps).Update (Msg.key "enter")).1 apps 0 [] =
      collectSelected (InitialModel apps) apps 0 [] := by
    rw [hu]
    exact collectSelected_congr { InitialModel apps with done := true } (InitialModel apps) rfl
      apps 0 []
  have hd : collectDefault apps [] =
      collectSelected ((InitialModel apps).Update (Msg.key "enter")).1 apps 0 [] := by
    rw [hc, collectSelected_InitialModel, collectDefault_eq, List.nil_append]
  have ht : testInstallation apps =
      handleInstallation ((InitialModel apps).Update (Msg.key "enter")).1 apps := by
    simp only [testInstallation, handleInstallation, hd]
  refine ⟨hd, ht, ?_⟩
  rw [ht]
  simp only [mainInteractive, runProgram, hu]

/-- C16. For every manifest in which no category of either group holds an
application, `GetAppItems` yields the empty catalog and `main` ends with the
fatal message "No applications found in manifest" and exit status 1, on the
batch and on the interactive path alike, before any session is created. -/
theorem empty_catalog_is_fatal (m : Manifest)
    (hr : ∀ e ∈ m.Recommended.entries, e.2 = [])
    (ho : ∀ e ∈ m.Optional.entries, e.2 = [])
    (testFlag : Bool) (msgs : List Msg) :
    m.GetAppItems = [] ∧
    mainAfterLoad m testFlag msgs = MainOutcome.fatal "No applications found in manifest" 1 := by
  have h : m.GetAppItems = [] := by
    rw [GetAppItems_eq]
    simp only [List.append_eq_nil, List.flatMap_eq_nil_iff, List.map_eq_nil_iff]
    exact ⟨hr, ho⟩
  refine ⟨h, ?_⟩
  simp [mainAfterLoad, h]

/-- Witness for C16: a manifest whose only category is empty. -/
theorem empty_catalog_is_fatal_witness :
    emptyManifest.GetAppItems = [] ∧
    mainAfterLoad emptyManifest false [Msg.key " "] =
      MainOutcome.fatal "No applications found in manifest" 1 :=
  empty_catalog_is_fatal emptyManifest (by decide) (by decide) false [Msg.key " "]

/-- C17 (as stated, refuted). The label of application "A" of the recommended
group is "A (recommended)", with a blank before the bracket, not
"A(recommended)"; likewise "B (optional)" for the optional group. -/
theorem display_label_has_blank :
    (scenarioManifest.GetAppItems.map (fun item => item.DisplayName)) =
      ["A (recommended)", "C (recommended)", "B (optional)"] ∧
    "A (recommended)" ≠ "A" ++ "(recommended)" ∧
    "B (optional)" ≠ "B" ++ "(optional)" := by
  refine ⟨by decide, by decide, by decide⟩

/-- C17 (amended). For every manifest, the display label of every item
produced by `GetAppItems` is the name of its application followed by
" (recommended)" for the recommended group and by " (optional)" for the
optional group, each suffix starting with a blank. -/
theorem display_label_is_name_with_suffix (m : Manifest) :
    (∀ e ∈ m.Recommended.entries, ∀ app ∈ e.2,
      (⟨app, e.1, "recommended", app.Name ++ " (recommended)", true⟩ : AppItem) ∈
        m.GetAppItems) ∧
    (∀ e ∈ m.Optional.entries, ∀ app ∈ e.2,
      (⟨app, e.1, "optional", app.Name ++ " (optional)", false⟩ : AppItem) ∈ m.GetAppItems) ∧
    (∀ item ∈ m.GetAppItems,
      (item.Priority = "recommended" ∧
        item.DisplayName = item.App.Name ++ " (recommended)") ∨
      (item.Priority = "optional" ∧ item.DisplayName = item.App.Name ++ " (optional)")) := by
  refine ⟨?_, ?_, ?_⟩
  · intro e he app ha
    rw [GetAppItems_eq]
    simp only [List.mem_append, List.mem_flatMap, List.mem_map]
    exact Or.inl ⟨e, he, app, ha, rfl⟩
  · intro e he app ha
    rw [GetAppItems_eq]
    simp only [List.mem_append, List.mem_flatMap, List.mem_map]
    exact Or.inr ⟨e, he, app, ha, rfl⟩
  · intro item hi
    rw [GetAppItems_eq] at hi
    simp only [List.mem_append, List.mem_flatMap, List.mem_map] at hi
    rcases hi with ⟨e, _, app, _, rfl⟩ | ⟨e, _, app, _, rfl⟩ <;> simp

/-! ## Lemmas on the view -/

theorem itemLines_eq (m : Model) (c p : String) (apps : List AppItem) :
    ∀ (k : Nat) (out : List Piece),
      itemLines m c p apps (k : Int) out =
        out ++ ((apps.enumFrom k).filter (fun e => e.2.Category = c ∧ e.2.Priority = p)).map
          (fun e => itemPiece m (e.1 : Int) e.2) := by
  induction apps with
  | nil => intro k out; simp [itemLines]
  | cons app rest ih =>
    intro k out
    have hk : ((k : Int) + 1) = ((k + 1 : Nat) : Int) := by push_cast; rfl
    rw [itemLines, hk, ih]
    by_cases h : app.Category = c ∧ app.Priority = p
    · simp [List.enumFrom, List.filter, h]
    · simp [List.enumFrom, List.filter, h]

theorem itemLines_zero (m : Model) (c p : String) (out : List Piece) :
    itemLines m c p m.apps 0 out =
      out ++ ((m.apps.enum).filter (fun e => e.2.Category = c ∧ e.2.Priority = p)).map
        (fun e => itemPiece m (e.1 : Int) e.2) := by
  have h := itemLines_eq m c p m.apps 0 out
  simpa [List.enum] using h

theorem groupByCategory_getD (apps : List AppItem) : ∀ (cats : CategoryMap) (c : String),
    ((groupByCategory apps cats).lookup c).getD [] =
      (cats.lookup c).getD [] ++ apps.filter (fun a => a.Category = c) := by
  induction apps with
  | nil => intro cats c; simp [groupByCategory]
  | cons app rest ih =>
    intro cats c
    rw [groupByCategory, ih]
    by_cases h : app.Category = c
    · subst h
      simp [Finmap.lookup_insert, List.filter]
    · have h2 : c ≠ app.Category := fun e => h e.symm
      rw [Finmap.lookup_insert_of_ne _ h2]
      simp [List.filter, h]

theorem groupByCategory_mem (apps : List AppItem) : ∀ (cats : CategoryMap) (c : String),
    c ∈ groupByCategory apps cats ↔ c ∈ cats ∨ ∃ a ∈ apps, a.Category = c := by
  induction apps with
  | nil => intro cats c; simp [groupByCategory]
  | cons app rest ih =>
    intro cats c
    rw [groupByCategory, ih, Finmap.mem_insert]
    constructor
    · rintro ((h | h) | ⟨a, ha, hc⟩)
      · exact Or.inr ⟨app, List.mem_cons_self _ _, h.symm⟩
      · exact Or.inl h
      · exact Or.inr ⟨a, List.mem_cons_of_mem _ ha, hc⟩
    · rintro (h | ⟨a, ha, hc⟩)
      · exact Or.inl (Or.inr h)
      · rcases List.mem_cons.mp ha with rfl | ha
        · exact Or.inl (Or.inl hc.symm)
        · exact Or.inr ⟨a, ha, hc⟩

theorem hasPriority_iff (apps : List AppItem) (c p : String) :
    (((groupByCategory apps ∅).lookup c).getD []).any (fun app => app.Priority = p) = true ↔
      ∃ a ∈ apps, a.Category = c ∧ a.Priority = p := by
  rw [groupByCategory_getD]
  simp only [Finmap.lookup_empty, Option.getD_none, List.nil_append, List.any_eq_true,
    List.mem_filter, decide_eq_true_eq]
  constructor
  · rintro ⟨a, ⟨ha, hc⟩, hp⟩; exact ⟨a, ha, hc, hp⟩
  · rintro ⟨a, ha, hc, hp⟩; exact ⟨a, ⟨ha, hc⟩, hp⟩

theorem renderPass_eq (m : Model) (cats : CategoryMap) (p : String) (order : List String) :
    ∀ out : List Piece, renderPass m cats p order out =
      out ++ order.flatMap (fun c =>
        if ((cats.lookup c).getD []).any (fun app => app.Priority = p) then
          Piece.header c :: ((m.apps.enum).filter
            (fun e => e.2.Category = c ∧ e.2.Priority = p)).map
              (fun e => itemPiece m (e.1 : Int) e.2)
        else []) := by
  induction order with
  | nil => intro out; simp [renderPass]
  | cons c rest ih =>
    intro out
    rw [renderPass, ih, List.flatMap_cons]
    split
    · rw [itemLines_zero]
      simp only [List.append_assoc, List.singleton_append, List.cons_append, List.nil_append]
    · rw [List.nil_append]

theorem viewPieces_eq (m : Model) (o1 o2 : List String) :
    m.viewPieces o1 o2 =
      [Piece.title, Piece.banner "RECOMMENDED APPLICATIONS"] ++
        renderPass m (groupByCategory m.apps ∅) "recommended" o1 [] ++
      [Piece.banner "\nOPTIONAL APPLICATIONS"] ++
        renderPass m (groupByCategory m.apps ∅) "optional" o2 [] ++
      [Piece.help, Piece.summary m.selected.len] := by
  simp only [Model.viewPieces]
  rw [renderPass_eq m _ "optional" o2 (_ ++ _), renderPass_eq m _ "recommended" o1 [_, _],
    renderPass_eq m _ "optional" o2 [], renderPass_eq m _ "recommended" o1 []]
  simp

theorem header_not_mem_items (m : Model) (c : String) (l : List (Nat × AppItem)) :
    List.count (Piece.header c) (l.map (fun e => itemPiece m (e.1 : Int) e.2)) = 0 := by
  rw [List.count_eq_zero]
  intro h
  rcases List.mem_map.mp h with ⟨e, _, he⟩
  simp [itemPiece] at he

theorem header_count (m : Model) (cats : CategoryMap) (p c : String) (order : List String)
    (hn : order.Nodup) :
    List.count (Piece.header c) (renderPass m cats p order []) =
      if c ∈ order ∧ ((cats.lookup c).getD []).any (fun app => app.Priority = p) = true
      then 1 else 0 := by
  rw [renderPass_eq, List.nil_append]
  induction order with
  | nil => simp
  | cons d rest ih =>
    have hd : d ∉ rest := (List.nodup_cons.mp hn).1
    rw [List.flatMap_cons, List.count_append, ih (List.nodup_cons.mp hn).2]
    by_cases hcd : c = d
    · subst hcd
      by_cases hh : ((cats.lookup c).getD []).any (fun app => app.Priority = p) = true
      · simp [hh, hd, header_not_mem_items]
      · simp [hh]
    · have hne : Piece.header c ≠ Piece.header d := by
        intro e; exact hcd (Piece.header.inj e)
      have h0 : List.count (Piece.header c)
          (if ((cats.lookup d).getD []).any (fun app => app.Priority = p) = true then
            Piece.header d :: ((m.apps.enum).filter
              (fun e => e.2.Category = d ∧ e.2.Priority = p)).map
                (fun e => itemPiece m (e.1 : Int) e.2)
          else []) = 0 := by
        split
        · rw [List.count_cons_of_ne hne, header_not_mem_items]
        · rfl
      rw [h0, Nat.zero_add]
      simp [hcd]

theorem rangeOrder_mem (apps : List AppItem) (order : List String)
    (h : RangeOrder (groupByCategory apps ∅) order) (c : String) :
    c ∈ order ↔ ∃ a ∈ apps, a.Category = c := by
  have h1 : c ∈ order.toFinset ↔ c ∈ (groupByCategory apps ∅).keys := by rw [h.2]
  rw [List.mem_toFinset, Finmap.mem_keys, groupByCategory_mem] at h1
  rw [h1]
  constructor
  · rintro (h0 | h0)
    · exact absurd h0 Finmap.not_mem_empty
    · exact h0
  · exact Or.inr

/-- C14. For every catalog and every session whose done flag is true, `View`
returns the empty string, whatever the styles and the visiting orders. -/
theorem view_empty_when_done (m : Model) (st : Styles) (order1 order2 : List String)
    (h : m.done = true) : m.View st order1 order2 = "" := by
  simp [Model.View, h]

/-- Witness for C14: the scenario session after enter. -/
theorem view_empty_when_done_witness :
    ((InitialModel scenarioCatalog).Update (Msg.key "enter")).1.done = true ∧
    ((InitialModel scenarioCatalog).Update (Msg.key "enter")).1.View plainStyles
      ["Dev", "Util"] ["Dev", "Util"] = "" :=
  ⟨by decide, view_empty_when_done _ plainStyles ["Dev", "Util"] ["Dev", "Util"] (by decide)⟩

/-- C19. For every catalog and session that is not done, and every order in
which the two `range` loops may visit the categories, `View` writes title,
recommended banner, recommended pass, optional banner, optional pass, help and
summary in this order, and the header of a category occurs in a pass once when
the catalog has an item of that category with the priority of the pass, and
not at all otherwise. -/
theorem view_passes_and_headers (m : Model) (st : Styles) (order1 order2 : List String)
    (hd : m.done = false)
    (h1 : RangeOrder (groupByCategory m.apps ∅) order1)
    (h2 : RangeOrder (groupByCategory m.apps ∅) order2) :
    m.View st order1 order2 =
      String.join (([Piece.title, Piece.banner "RECOMMENDED APPLICATIONS"] ++
        renderPass m (groupByCategory m.apps ∅) "recommended" order1 [] ++
        [Piece.banner "\nOPTIONAL APPLICATIONS"] ++
        renderPass m (groupByCategory m.apps ∅) "optional" order2 [] ++
        [Piece.help, Piece.summary m.selected.len]).map (Piece.render st)) ∧
    (∀ c : String,
      List.count (Piece.header c)
          (renderPass m (groupByCategory m.apps ∅) "recommended" order1 []) =
        if ∃ a ∈ m.apps, a.Category = c ∧ a.Priority = "recommended" then 1 else 0) ∧
    (∀ c : String,
      List.count (Piece.header c)
          (renderPass m (groupByCategory m.apps ∅) "optional" order2 []) =
        if ∃ a ∈ m.apps, a.Category = c ∧ a.Priority = "optional" then 1 else 0) := by
  have key : ∀ (p : String) (order : List String), RangeOrder (groupByCategory m.apps ∅) order →
      ∀ c : String, List.count (Piece.header c)
          (renderPass m (groupByCategory m.apps ∅) p order []) =
        if ∃ a ∈ m.apps, a.Category = c ∧ a.Priority = p then 1 else 0 := by
    intro p order ho c
    rw [header_count m _ p c order ho.1]
    by_cases hx : ∃ a ∈ m.apps, a.Category = c ∧ a.Priority = p
    · have hy : c ∈ order := by
        rcases hx with ⟨a, ha, hc, _⟩
        exact (rangeOrder_mem m.apps order ho c).mpr ⟨a, ha, hc⟩
      rw [if_pos ⟨hy, (hasPriority_iff m.apps c p).mpr hx⟩, if_pos hx]
    · rw [if_neg (fun h => hx ((hasPriority_iff m.apps c p).mp h.2)), if_neg hx]
  refine ⟨?_, key "recommended" order1 h1, key "optional" order2 h2⟩
  simp only [Model.View, hd, Bool.false_eq_true, if_false]
  rw [viewPieces_eq]

/-- Witness for C19: the fresh scenario session, categories visited as
Util, Dev in the first pass. -/
theorem view_passes_and_headers_witness :
    List.count (Piece.header "Util")
        (renderPass (InitialModel scenarioCatalog)
          (groupByCategory (InitialModel scenarioCatalog).apps ∅) "optional" ["Dev", "Util"] []) =
      if ∃ a ∈ (InitialModel scenarioCatalog).apps, a.Category = "Util" ∧ a.Priority = "optional"
      then 1 else 0 :=
  (view_passes_and_headers (InitialModel scenarioCatalog) plainStyles ["Util", "Dev"]
    ["Dev", "Util"] rfl ⟨by decide, by decide⟩ ⟨by decide, by decide⟩).2.2 "Util"

theorem count_grouped [BEq (Nat × AppItem)] [LawfulBEq (Nat × AppItem)]
    (l : List (Nat × AppItem)) (x : Nat × AppItem) (order : List String)
    (hn : order.Nodup) :
    List.count x (order.flatMap (fun c => l.filter (fun e => e.2.Category = c))) =
      if x.2.Category ∈ order then List.count x l else 0 := by
  induction order with
  | nil => simp
  | cons d rest ih =>
    have hd : d ∉ rest := (List.nodup_cons.mp hn).1
    rw [List.flatMap_cons, List.count_append, ih (List.nodup_cons.mp hn).2]
    by_cases hx : x.2.Category = d
    · have hnot : x.2.Category ∉ rest := by rw [hx]; exact hd
      rw [List.count_filter (by simpa using hx), if_neg hnot, if_pos (by rw [hx]; simp)]
      rfl
    · have h0 : List.count x (l.filter (fun e => e.2.Category = d)) = 0 := by
        rw [List.count_eq_zero]
        intro hm
        have := (List.mem_filter.mp hm).2
        exact hx (by simpa using this)
      rw [h0, Nat.zero_add]
      have hiff : x.2.Category ∈ d :: rest ↔ x.2.Category ∈ rest := by
        simp [hx]
      by_cases hr : x.2.Category ∈ rest
      · rw [if_pos hr, if_pos (hiff.mpr hr)]
      · rw [if_neg hr, if_neg (fun h => hr (hiff.mp h))]

theorem perm_grouped (l : List (Nat × AppItem)) (order : List String) (hn : order.Nodup)
    (hc : ∀ e ∈ l, e.2.Category ∈ order) :
    (order.flatMap (fun c => l.filter (fun e => e.2.Category = c))).Perm l := by
  rw [List.perm_iff_count]
  intro x
  rw [@count_grouped instBEqOfDecidableEq instLawfulBEq l x order hn]
  by_cases hx : x.2.Category ∈ order
  · rw [if_pos hx]
  · rw [if_neg hx]
    exact (@List.count_eq_zero_of_not_mem _ instBEqOfDecidableEq instLawfulBEq _ _ (fun hm => hx (hc x hm))).symm

theorem mem_enum_snd (apps : List AppItem) (e : Nat × AppItem) (h : e ∈ apps.enum) :
    e.2 ∈ apps :=
  List.getElem?_mem (List.mem_enum_iff_getElem?.mp h)

theorem filter_isItem_renderPass (m : Model) (p : String) (order : List String) :
    (renderPass m (groupByCategory m.apps ∅) p order []).filter Piece.isItem =
      (order.flatMap (fun c =>
        ((m.apps.enum).filter (fun e => e.2.Priority = p)).filter
          (fun e => e.2.Category = c))).map (fun e => itemPiece m (e.1 : Int) e.2) := by
  rw [renderPass_eq, List.nil_append]
  induction order with
  | nil => rfl
  | cons c rest ih =>
    rw [List.flatMap_cons, List.flatMap_cons, List.filter_append, List.map_append, ih]
    congr 1
    have hf : ((m.apps.enum).filter (fun e => e.2.Priority = p)).filter
          (fun e => e.2.Category = c) =
        (m.apps.enum).filter (fun e => e.2.Category = c ∧ e.2.Priority = p) := by
      rw [List.filter_filter]
      congr 1
      funext e
      simp [Bool.decide_and]
    rw [hf]
    split
    · rw [List.filter_cons_of_neg (by simp [Piece.isItem])]
      rw [List.filter_eq_self]
      intro x hx
      rcases List.mem_map.mp hx with ⟨e, _, rfl⟩
      rfl
    · rename_i hno
      have hnil : (m.apps.enum).filter (fun e => e.2.Category = c ∧ e.2.Priority = p) = [] := by
        rw [List.filter_eq_nil_iff]
        intro e he hce
        apply hno
        rw [hasPriority_iff]
        have hce2 : e.2.Category = c ∧ e.2.Priority = p := by simpa using hce
        exact ⟨e.2, mem_enum_snd m.apps e he, hce2⟩
      rw [hnil]
      rfl

theorem perm_priorities (l : List (Nat × AppItem))
    (hp : ∀ e ∈ l, e.2.Priority = "recommended" ∨ e.2.Priority = "optional") :
    (l.filter (fun e => e.2.Priority = "recommended") ++
      l.filter (fun e => e.2.Priority = "optional")).Perm l := by
  have hq : l.filter (fun e => e.2.Priority = "optional") =
      l.filter (fun e => !(decide (e.2.Priority = "recommended"))) := by
    apply List.filter_congr
    intro e he
    rcases hp e he with h | h <;> simp [h]
  rw [hq]
  exact List.filter_append_perm _ l

theorem pair_sublist {α : Type} (l : List α) : ∀ (i j : Nat) (x y : α), i < j →
    l.get? i = some x → l.get? j = some y → [x, y].Sublist l := by
  induction l with
  | nil => intro i j x y _ hx _; simp at hx
  | cons h t ih =>
    intro i j x y hij hx hy
    cases j with
    | zero => omega
    | succ j =>
      cases i with
      | zero =>
        simp only [List.get?_cons_zero, Option.some.injEq] at hx
        subst hx
        simp only [List.get?_cons_succ] at hy
        exact List.Sublist.cons₂ _ (List.singleton_sublist.mpr (List.get?_mem hy))
      | succ i =>
        simp only [List.get?_cons_succ] at hx hy
        exact List.Sublist.cons _ (ih i j x y (by omega) hx hy)

theorem items_sublist_pass (m : Model) (p c : String) (order : List String) (hc : c ∈ order)
    (hh : ∃ a ∈ m.apps, a.Category = c ∧ a.Priority = p) :
    (((m.apps.enum).filter (fun e => e.2.Category = c ∧ e.2.Priority = p)).map
      (fun e => itemPiece m (e.1 : Int) e.2)).Sublist
      (renderPass m (groupByCategory m.apps ∅) p order []) := by
  rw [renderPass_eq, List.nil_append, List.flatMap_def]
  refine List.Sublist.trans ?_ (List.sublist_flatten_of_mem (List.mem_map_of_mem _ hc))
  rw [if_pos ((hasPriority_iff m.apps c p).mpr hh)]
  exact List.Sublist.cons _ (List.Sublist.refl _)

theorem pair_sublist_pass (m : Model) (order : List String)
    (ho : RangeOrder (groupByCategory m.apps ∅) order)
    (i j : Nat) (a b : AppItem) (hij : i < j)
    (ha : m.apps.get? i = some a) (hb : m.apps.get? j = some b)
    (hcat : a.Category = b.Category) (hprio : a.Priority = b.Priority) :
    [itemPiece m (i : Int) a, itemPiece m (j : Int) b].Sublist
      (renderPass m (groupByCategory m.apps ∅) a.Priority order []) := by
  have hmem : a ∈ m.apps := List.get?_mem ha
  have hc : a.Category ∈ order := (rangeOrder_mem m.apps order ho _).mpr ⟨a, hmem, rfl⟩
  refine List.Sublist.trans ?_
    (items_sublist_pass m a.Priority a.Category order hc ⟨a, hmem, rfl, rfl⟩)
  have hpair : [((i, a) : Nat × AppItem), (j, b)].Sublist m.apps.enum :=
    pair_sublist m.apps.enum i j (i, a) (j, b) hij
      (by rw [List.get?_eq_getElem?, List.getElem?_enum, ← List.get?_eq_getElem?, ha]; rfl)
      (by rw [List.get?_eq_getElem?, List.getElem?_enum, ← List.get?_eq_getElem?, hb]; rfl)
  have hf := hpair.filter (fun e => e.2.Category = a.Category ∧ e.2.Priority = a.Priority)
  have hself : [((i, a) : Nat × AppItem), (j, b)].filter
      (fun e => e.2.Category = a.Category ∧ e.2.Priority = a.Priority) =
      [((i, a) : Nat × AppItem), (j, b)] := by
    simp [List.filter, hcat, hprio]
  rw [hself] at hf
  exact hf.map (fun e => itemPiece m (e.1 : Int) e.2)

/-- C18. For every catalog whose items all have priority recommended or
optional, every session that is not done and every order in which the two
`range` loops may visit the categories: the item lines that `View` writes
are, up to their order, exactly one line per catalog index; the line of index
`i` shows ">" when `i` is the cursor and a blank otherwise, "✓" when
`Selected i` and a blank otherwise, and the display name of the item; and of
two items of the same category and priority the one earlier in the catalog is
written first. -/
theorem view_one_line_per_item (m : Model) (st : Styles) (order1 order2 : List String)
    (hd : m.done = false)
    (hp : ∀ a ∈ m.apps, a.Priority = "recommended" ∨ a.Priority = "optional")
    (h1 : RangeOrder (groupByCategory m.apps ∅) order1)
    (h2 : RangeOrder (groupByCategory m.apps ∅) order2) :
    m.View st order1 order2 =
      String.join ((m.viewPieces order1 order2).map (Piece.render st)) ∧
    ((m.viewPieces order1 order2).filter Piece.isItem).Perm
      (m.apps.enum.map (fun e => Piece.item (e.1 : Int)
        (if m.cursor = (e.1 : Int) then ">" else " ")
        (if m.Selected (e.1 : Int) then "✓" else " ")
        (m.Selected (e.1 : Int)) e.2.DisplayName)) ∧
    (∀ (i j : Nat) (a b : AppItem), i < j → m.apps.get? i = some a → m.apps.get? j = some b →
      a.Category = b.Category → a.Priority = b.Priority →
      [Piece.item (i : Int) (if m.cursor = (i : Int) then ">" else " ")
          (if m.Selected (i : Int) then "✓" else " ") (m.Selected (i : Int)) a.DisplayName,
        Piece.item (j : Int) (if m.cursor = (j : Int) then ">" else " ")
          (if m.Selected (j : Int) then "✓" else " ") (m.Selected (j : Int)) b.DisplayName].Sublist
        (m.viewPieces order1 order2)) ∧
    (∀ (i : Int) (cursor checked : String) (selected : Bool) (displayName : String),
      Piece.render st (Piece.item i cursor checked selected displayName) =
        (if selected then st.selectedStyle else st.unselectedStyle)
          ("    " ++ (cursor ++ " [" ++ checked ++ "] " ++ displayName)) ++ "\n") := by
  refine ⟨?_, ?_, ?_, fun _ _ _ _ _ => rfl⟩
  · simp only [Model.View, hd, Bool.false_eq_true, if_false]
  · have hcov : ∀ (p : String) (order : List String),
        RangeOrder (groupByCategory m.apps ∅) order →
        ∀ e ∈ (m.apps.enum).filter (fun e => e.2.Priority = p), e.2.Category ∈ order := by
      intro p order ho e he
      exact (rangeOrder_mem m.apps order ho _).mpr
        ⟨e.2, mem_enum_snd m.apps e (List.mem_filter.mp he).1, rfl⟩
    have hfix1 : List.filter Piece.isItem
        [Piece.title, Piece.banner "RECOMMENDED APPLICATIONS"] = [] := rfl
    have hfix2 : List.filter Piece.isItem [Piece.banner "\nOPTIONAL APPLICATIONS"] = [] := rfl
    have hfix3 : List.filter Piece.isItem [Piece.help, Piece.summary m.selected.len] = [] := rfl
    rw [viewPieces_eq]
    simp only [List.filter_append, hfix1, hfix2, hfix3, List.nil_append, List.append_nil]
    rw [filter_isItem_renderPass, filter_isItem_renderPass]
    have hr := (perm_grouped _ order1 h1.1 (hcov "recommended" order1 h1)).map
      (fun e => itemPiece m (e.1 : Int) e.2)
    have ho := (perm_grouped _ order2 h2.1 (hcov "optional" order2 h2)).map
      (fun e => itemPiece m (e.1 : Int) e.2)
    refine (hr.append ho).trans ?_
    rw [← List.map_append]
    exact (perm_priorities m.apps.enum
      (fun e he => hp e.2 (mem_enum_snd m.apps e he))).map _
  · intro i j a b hij ha hb hcat hprio
    rw [viewPieces_eq]
    rcases hp a (List.get?_mem ha) with hpa | hpa
    · have h := pair_sublist_pass m order1 h1 i j a b hij ha hb hcat hprio
      rw [hpa] at h
      exact List.sublist_append_of_sublist_left (List.sublist_append_of_sublist_left
        (List.sublist_append_of_sublist_left (List.sublist_append_of_sublist_right h)))
    · have h := pair_sublist_pass m order2 h2 i j a b hij ha hb hcat hprio
      rw [hpa] at h
      exact List.sublist_append_of_sublist_left (List.sublist_append_of_sublist_right h)

/-- Witness for C18: the fresh scenario session, categories visited as
Util, Dev in the first pass and as Dev, Util in the second. -/
theorem view_one_line_per_item_witness :
    (((InitialModel scenarioCatalog).viewPieces ["Util", "Dev"] ["Dev", "Util"]).filter
      Piece.isItem).Perm
      ((InitialModel scenarioCatalog).apps.enum.map (fun e => Piece.item (e.1 : Int)
        (if (InitialModel scenarioCatalog).cursor = (e.1 : Int) then ">" else " ")
        (if (InitialModel scenarioCatalog).Selected (e.1 : Int) then "✓" else " ")
        ((InitialModel scenarioCatalog).Selected (e.1 : Int)) e.2.DisplayName)) :=
  (view_one_line_per_item (InitialModel scenarioCatalog) plainStyles ["Util", "Dev"]
    ["Dev", "Util"] rfl (by decide) ⟨by decide, by decide⟩ ⟨by decide, by decide⟩).2.1

/-! ## The selection count -/

end Kamae
